import Mathlib

/-!
Verification of the crawler / TF-IDF search engine (Go repository).

The Go source is shallowly embedded:

* `processWords` models the tokenizer/normalizer pipeline that every
  indexer backend runs over the raw word list of a document
  (skip empty word, lowercase, stopword filter, stem, skip empty stem).
  The snowball stemmer is an external library, so every definition and
  theorem is parameterized by an arbitrary `stem : String → String`.
* `InMemIndexer` models the project03 in-memory backend
  (fields `tf`, `df`, `docLen`, `N`, `stop`); Go hash maps become total
  functions plus an insertion-ordered key list `docs` (Go map iteration
  order is unspecified, and the final sort makes the output canonical).
* `SQLiteIndexer` models the project03 SQLite backend: table `urls` is an
  insertion-ordered list, table `words` likewise, and table `hits` is the
  total function `hitsTab` (a zero count means "no row": the code only
  ever inserts positive counts).  SQL aggregates (COUNT, SUM) become
  `List.countP` / `List.sum` over those lists.
* `SQLiteIndexV2` models the project02 `sqlite_index_v2.go` backend,
  including its `word_count = len(words)` update.
* Scores are real numbers (`Real.log` for Go's `math.Log`); float64
  rounding is out of scope, as the spec compares scores only up to
  floating-point tolerance.  The Go comparator `lessHit` compares scores;
  since `Real` comparison is not computable, the embedded `Search` sorts
  the per-document `(url, count, docLen)` entries with the executable
  order `entryLE` and lemma `lessHit_mkHit_iff` proves that this order
  coincides with the source comparator `lessHit` on the realized scores.
-/

/-- Model of Go's `strings.ToLower` (ASCII range; the corpora and queries
here are ASCII).  Implemented over the character list because the core
`String.toLower` does not reduce in the kernel. -/
def strToLower (s : String) : String :=
  String.mk (s.data.map Char.toLower)

/-- Model of Go's `strings.TrimSpace`: drop leading and trailing
whitespace characters. -/
def strTrim (s : String) : String :=
  String.mk
    (((s.data.dropWhile Char.isWhitespace).reverse.dropWhile
      Char.isWhitespace).reverse)

/-- List-level prefix test used by `hasPrefixB`. -/
def isPrefixOfL : List Char → List Char → Bool
  | [], _ => true
  | _ :: _, [] => false
  | a :: as, b :: bs => a = b && isPrefixOfL as bs

/-- Model of Go's `strings.HasPrefix pre s` (note the argument order:
the prefix comes first here). -/
def hasPrefixB (pre s : String) : Bool :=
  isPrefixOfL pre.data s.data

/-- Model of Go's `strings.HasSuffix s suf`. -/
def hasSuffixB (s suf : String) : Bool :=
  isPrefixOfL suf.data.reverse s.data.reverse

/-- One raw-word step of the pipeline shared by every backend
(`AddDocument` loop bodies): skip empty words, lowercase, drop stopwords,
stem, drop empty stems.  Returns the list of surviving stems in order. -/
def processWords (stem : String → String) (stop : List String)
    (words : List String) : List String :=
  words.filterMap (fun w =>
    if w = "" then none
    else
      let lw := strToLower w
      if lw ∈ stop then none
      else
        let s := stem lw
        if s = "" then none else some s)

/-- `Hit` from the Go source: a scored search result. -/
structure Hit where
  URL : String
  Score : ℝ

/-- The comparator `lessHit` from the source (`index.go` and the project03
indexer file agree up to the commutation `b.URL > a.URL ↔ a.URL < b.URL`):
higher score first; on equal scores, URL ascending. -/
def lessHit (a b : Hit) : Prop :=
  if a.Score = b.Score then a.URL < b.URL else a.Score > b.Score

/-- A pre-score search entry: document URL, posting count for the query
stem in that document, and the document's length (the score denominator). -/
abbrev SEntry := String × Nat × Nat

/-- The real-valued TF-IDF score the Go code computes for an entry:
`(count / docLen) * ln (N / df)`. -/
noncomputable def mkHit (N df : Nat) (e : SEntry) : Hit :=
  ⟨e.1, ((e.2.1 : ℝ) / (e.2.2 : ℝ)) * Real.log ((N : ℝ) / (df : ℝ))⟩

/-- Executable sort key equivalent to the real score for fixed `N`, `df`:
within one `Search` call `ln (N/df)` is a common factor, so ordering by
descending score is ordering by descending `count/docLen` when the factor
is positive (`df < N`), ascending when it is negative (`N < df`), and all
scores tie when `N = df`.  Smaller key sorts first. -/
def qkey (N df : Nat) (e : SEntry) : ℚ :=
  if df < N then -((e.2.1 : ℚ) / (e.2.2 : ℚ))
  else if N < df then (e.2.1 : ℚ) / (e.2.2 : ℚ)
  else 0

/-- Strict order on entries: the executable counterpart of `lessHit`. -/
def entryLT (N df : Nat) (a b : SEntry) : Prop :=
  qkey N df a < qkey N df b ∨ (qkey N df a = qkey N df b ∧ a.1 < b.1)

/-- Non-strict order on entries used for sorting (`sort.Slice` with the
`lessHit` comparator produces a list sorted under its reflexive closure). -/
def entryLE (N df : Nat) (a b : SEntry) : Prop :=
  qkey N df a < qkey N df b ∨ (qkey N df a = qkey N df b ∧ a.1 ≤ b.1)

instance entryLEDecidable (N df : Nat) : DecidableRel (entryLE N df) := by
  unfold entryLE; exact fun a b => inferInstance

instance entryLEIsTotal (N df : Nat) : IsTotal SEntry (entryLE N df) := by
  constructor
  intro a b
  unfold entryLE
  rcases lt_trichotomy (qkey N df a) (qkey N df b) with h | h | h
  · exact Or.inl (Or.inl h)
  · rcases le_total a.1 b.1 with hu | hu
    · exact Or.inl (Or.inr ⟨h, hu⟩)
    · exact Or.inr (Or.inr ⟨h.symm, hu⟩)
  · exact Or.inr (Or.inl h)

instance entryLEIsTrans (N df : Nat) : IsTrans SEntry (entryLE N df) := by
  constructor
  intro a b c hab hbc
  unfold entryLE at *
  rcases hab with h1 | ⟨h1, hu1⟩
  · rcases hbc with h2 | ⟨h2, _⟩
    · exact Or.inl (h1.trans h2)
    · exact Or.inl (h2 ▸ h1)
  · rcases hbc with h2 | ⟨h2, hu2⟩
    · exact Or.inl (h1 ▸ h2)
    · exact Or.inr ⟨h1.trans h2, hu1.trans hu2⟩

/-- The in-memory indexer state (`InMemIndexer` in the source):
`tf : stem → doc → term freq`, `dfm : stem → doc freq`,
`docLen : doc → token count after stop+stem` (`none` = key absent),
`N` = total documents, `stop` = stopword set.  `docs` is the key list of
the `docLen` map in insertion order. -/
structure InMemIndexer where
  tf : String → String → Nat
  dfm : String → Nat
  docLen : String → Option Nat
  docs : List String
  N : Nat
  stop : List String

/-- `NewInMemIndexer`: the empty index over a given stopword set. -/
def InMemIndexer.new (stop : List String) : InMemIndexer :=
  ⟨fun _ _ => 0, fun _ => 0, fun _ => none, [], 0, stop⟩

/-- `InMemIndexer.AddDocument`: a duplicate URL is a no-op; otherwise run
the pipeline, add the per-stem counts for this document to `tf`, bump `df`
of each distinct surviving stem, record `docLen` = number of surviving
tokens, and increment `N`.  The Go loop's net effect on the maps is
written in closed form (`stems.count s` increments of `tf s doc`, one
`df` increment per distinct stem in `stems`). -/
def InMemIndexer.AddDocument (stem : String → String) (idx : InMemIndexer)
    (doc : String) (words : List String) : InMemIndexer :=
  if (idx.docLen doc).isSome then idx
  else
    let stems := processWords stem idx.stop words
    { tf := fun s d => if d = doc then idx.tf s d + stems.count s else idx.tf s d
      dfm := fun s => if s ∈ stems then idx.dfm s + 1 else idx.dfm s
      docLen := fun d => if d = doc then some stems.length else idx.docLen d
      docs := idx.docs ++ [doc]
      N := idx.N + 1
      stop := idx.stop }

/-- The loop body of `InMemIndexer.Search`: one `(doc, tfreq, docLen)`
entry per document of the `tf[stem]` map whose `docLen` is nonzero (the
divide-by-zero guard). -/
def InMemIndexer.entriesFor (idx : InMemIndexer) (s : String) : List SEntry :=
  idx.docs.filterMap (fun d =>
    if idx.tf s d = 0 then none
    else
      let den := (idx.docLen d).getD 0
      if den = 0 then none else some (d, idx.tf s d, den))

/-- `InMemIndexer.Search`: guards (empty term, empty corpus, stopword,
unseen stem), then one entry per document in the `tf[stem]` map whose
`docLen` is nonzero, scored with `tf * idf` and sorted by `lessHit`.
The Go code iterates the `tf[stem]` hash map in unspecified order and
then sorts; here the entries are drawn from the insertion-ordered
document list and sorted with `entryLE`, which agrees with `lessHit`
on the realized scores (`lessHit_mkHit_iff`). -/
noncomputable def InMemIndexer.Search (stem : String → String)
    (idx : InMemIndexer) (term : String) : List Hit :=
  if term = "" ∨ idx.N = 0 then []
  else
    let q := strToLower term
    if q ∈ idx.stop then []
    else
      let s := stem q
      let df := idx.dfm s
      if df = 0 then []
      else
        (List.insertionSort (entryLE idx.N df) (idx.entriesFor s)).map
          (mkHit idx.N df)

/-- The project03 SQLite indexer state (`SQLiteIndexer` in the source).
`urls` and `words` are the two unique-keyed tables in insertion (id)
order; `hitsTab u w` is the `count` of the `hits` row `(u, w)`, with `0`
meaning "no row" (the code only ever writes positive counts). -/
structure SQLiteIndexer where
  urls : List String
  words : List String
  hitsTab : String → String → Nat
  stop : List String

/-- A fresh (empty-database) SQLite indexer. -/
def SQLiteIndexer.new (stop : List String) : SQLiteIndexer :=
  ⟨[], [], fun _ _ => 0, stop⟩

/-- `SQLiteIndexer.AddDocument`: `INSERT OR IGNORE` the URL, recompute the
per-stem counts of the supplied words, `INSERT OR IGNORE` each distinct
stem into `words`, and `INSERT OR REPLACE` each `(url, stem, count)` row.
Note the absence of any early return for an already-present URL: unlike
the in-memory backend, re-adding a URL replaces/merges its postings. -/
def SQLiteIndexer.AddDocument (stem : String → String) (idx : SQLiteIndexer)
    (doc : String) (words : List String) : SQLiteIndexer :=
  let stems := processWords stem idx.stop words
  { urls := if doc ∈ idx.urls then idx.urls else idx.urls ++ [doc]
    words := idx.words ++ (stems.dedup.filter (fun w => w ∉ idx.words))
    hitsTab := fun u w =>
      if u = doc ∧ w ∈ stems then stems.count w else idx.hitsTab u w
    stop := idx.stop }

/-- `SELECT SUM(h2.count) FROM hits h2 WHERE h2.url_id = u.id`: the total
surviving-token count of a document, summed over the `words` table. -/
def SQLiteIndexer.totalWords (idx : SQLiteIndexer) (u : String) : Nat :=
  (idx.words.map (fun w => idx.hitsTab u w)).sum

/-- `SELECT COUNT(*) FROM hits h JOIN words w ... WHERE w.word = s`: the
number of documents holding a posting row for stem `s`. -/
def SQLiteIndexer.dfOf (idx : SQLiteIndexer) (s : String) : Nat :=
  idx.urls.countP (fun u => idx.hitsTab u s != 0)

/-- The row loop of `SQLiteIndexer.Search`: one `(url, count, totalWords)`
row per document with a posting for the stem and a positive summed
length. -/
def SQLiteIndexer.entriesFor (idx : SQLiteIndexer) (s : String) : List SEntry :=
  idx.urls.filterMap (fun u =>
    if idx.hitsTab u s = 0 then none
    else
      let tw := idx.totalWords u
      if tw = 0 then none else some (u, idx.hitsTab u s, tw))

/-- `SQLiteIndexer.Search`: guards (empty term, stopword, empty `urls`
table, `df = 0`), then one row per document joined on the query stem with
its posting count and summed document length, scored `tf * idf` and
sorted with the same comparator as the in-memory backend.  Database
errors (I/O) are outside this embedding. -/
noncomputable def SQLiteIndexer.Search (stem : String → String)
    (idx : SQLiteIndexer) (term : String) : List Hit :=
  if term = "" then []
  else
    let q := strToLower term
    if q ∈ idx.stop then []
    else
      let s := stem q
      let totalDocs := idx.urls.length
      if totalDocs = 0 then []
      else
        let df := idx.dfOf s
        if df = 0 then []
        else
          (List.insertionSort (entryLE totalDocs df) (idx.entriesFor s)).map
            (mkHit totalDocs df)

/-- The project02 `SQLiteIndexV2` state: `documents (url, word_count)`,
`vocabulary (term, document_frequency)` and `term_frequencies` tables,
plus the cached document count `N`. -/
structure SQLiteIndexV2 where
  urls : List String
  wordCount : String → Nat
  vocab : List String
  vocabDf : String → Nat
  tfreq : String → String → Nat
  N : Nat
  stop : List String

/-- A fresh `SQLiteIndexV2` over an empty database. -/
def SQLiteIndexV2.new (stop : List String) : SQLiteIndexV2 :=
  ⟨[], fun _ => 0, [], fun _ => 0, fun _ _ => 0, 0, stop⟩

/-- `SQLiteIndexV2.Add`: early return when the URL already exists;
otherwise create the document row, run the pipeline, then — as in the
source — set `word_count` to `len(words)`, the RAW length of the supplied
word list (not the surviving-token count), update each distinct term's
`document_frequency`, write the `term_frequencies` rows, and bump `N`. -/
def SQLiteIndexV2.Add (stem : String → String) (idx : SQLiteIndexV2)
    (doc : String) (words : List String) : SQLiteIndexV2 :=
  if doc ∈ idx.urls then idx
  else
    let stems := processWords stem idx.stop words
    { urls := idx.urls ++ [doc]
      wordCount := fun d => if d = doc then words.length else idx.wordCount d
      vocab := idx.vocab ++ (stems.dedup.filter (fun w => w ∉ idx.vocab))
      vocabDf := fun s => if s ∈ stems then idx.vocabDf s + 1 else idx.vocabDf s
      tfreq := fun d t =>
        if d = doc ∧ t ∈ stems then stems.count t else idx.tfreq d t
      N := idx.N + 1
      stop := idx.stop }

/-- `SQLiteIndexV2.SearchTFIDF`: guards, then one row per document joined
on the query stem (`frequency`, `word_count`, `document_frequency`),
keeping rows with positive `word_count` and positive `document_frequency`,
scored `(frequency / word_count) * ln (N / document_frequency)` and sorted
with the shared comparator. -/
noncomputable def SQLiteIndexV2.SearchTFIDF (stem : String → String)
    (idx : SQLiteIndexV2) (term : String) : List Hit :=
  if term = "" ∨ idx.N = 0 then []
  else
    let q := strToLower term
    if q ∈ idx.stop then []
    else
      let s := stem q
      let df := idx.vocabDf s
      let entries : List SEntry := idx.urls.filterMap (fun u =>
        if idx.tfreq u s = 0 then none
        else if 0 < idx.wordCount u ∧ 0 < df then
          some (u, idx.tfreq u s, idx.wordCount u)
        else none)
      (List.insertionSort (entryLE idx.N df) entries).map (mkHit idx.N df)

/-- `Download` (download.go): the HTTP response is modeled as `none`
(request failure) or `some (statusCode, body)`.  The code errors unless
the status is exactly `http.StatusOK` (200), in which case it returns the
raw body bytes. -/
def Download (resp : Option (Nat × String)) : Except String String :=
  match resp with
  | none => Except.error "request failed"
  | some (status, body) =>
      if status ≠ 200 then Except.error ("status " ++ toString status)
      else Except.ok body

/-- `DefaultStopwords` (stopwords.go): the built-in English stopword
list. -/
def DefaultStopwords : List String :=
  ["a", "an", "the", "and", "or", "but",
   "to", "in", "of", "on", "for", "with", "as", "at", "by", "from",
   "is", "are", "was", "were", "be", "been", "being",
   "this", "that", "these", "those", "it", "its", "itself",
   "i", "me", "my", "myself", "we", "our", "ours", "ourselves",
   "you", "your", "yours", "yourself", "yourselves",
   "he", "him", "his", "himself", "she", "her", "hers", "herself",
   "they", "them", "their", "theirs", "themselves",
   "do", "does", "did", "doing",
   "have", "has", "had", "having",
   "not", "no", "nor", "only", "very", "too",
   "can", "could", "should", "would", "may", "might", "must", "will",
   "if", "then", "else", "than", "so", "because", "while", "when", "where",
   "about", "above", "below", "under", "over", "into", "out", "up", "down",
   "again", "further", "once", "here", "there"]

/-- Split a character list at the first occurrence of `c` (Go's
`strings.Cut`): returns the part before and, when `c` occurs, the part
after it. -/
def cutL (c : Char) : List Char → List Char × Option (List Char)
  | [] => ([], none)
  | x :: xs =>
      if x = c then ([], some xs)
      else
        let r := cutL c xs
        (x :: r.1, r.2)

/-- Valid non-initial characters of a URL scheme (RFC 3986 /
`net/url.getScheme`). -/
def isSchemeChar (c : Char) : Bool :=
  c.isAlpha || c.isDigit || c = '+' || c = '-' || c = '.'

/-- Model of a parsed `net/url.URL` restricted to the fields this
repository touches: scheme, authority presence and host, path, query and
fragment.  Escaping, user info and opaque URLs are out of scope (hrefs
with `javascript:`/`data:` schemes are rejected before parsing). -/
structure GoURL where
  scheme : String
  hasHost : Bool
  host : String
  path : String
  hasQuery : Bool
  query : String
  fragment : String
deriving DecidableEq

/-- Assemble a `GoURL` from the remainder after the scheme: an authority
part after `//` (up to the next `/` or `?`), then path and query. -/
def urlFromRest (scheme rem frag : List Char) : GoURL :=
  let withHost := isPrefixOfL ['/', '/'] rem
  let rem2 := if withHost then rem.drop 2 else rem
  let host := if withHost then rem2.takeWhile (fun c => !(c = '/' || c = '?')) else []
  let pq := if withHost then rem2.dropWhile (fun c => !(c = '/' || c = '?')) else rem
  let pathQuery := cutL '?' pq
  { scheme := String.mk scheme
    hasHost := withHost
    host := String.mk host
    path := String.mk pathQuery.1
    hasQuery := pathQuery.2.isSome
    query := String.mk (pathQuery.2.getD [])
    fragment := String.mk frag }

/-- Model of `net/url.Parse`: split off the fragment at the first `#`,
recognize a scheme (letters then letters/digits/`+`/`-`/`.` before the
first `:`; a leading `:` is a parse error, as are ASCII control
characters), then authority/path/query.  Query/path escaping is carried
verbatim. -/
def urlParse (s : String) : Option GoURL :=
  if s.data.any (fun c => c.toNat < 32) then none
  else
    let cutFrag := cutL '#' s.data
    let noFrag := cutFrag.1
    let frag := cutFrag.2.getD []
    let cutScheme := cutL ':' noFrag
    match cutScheme.2 with
    | some rest =>
        if cutScheme.1 = [] then none
        else if (match cutScheme.1 with
                 | c :: cs => c.isAlpha && cs.all isSchemeChar
                 | [] => false) then
          some (urlFromRest (cutScheme.1.map Char.toLower) rest frag)
        else some (urlFromRest [] noFrag frag)
    | none => some (urlFromRest [] noFrag frag)

/-- `base[:LastIndex(base, sep)+1]` for `sep = '/'`: everything up to and
including the last slash (empty when there is none). -/
def upToLastSlash (l : List Char) : List Char :=
  (l.reverse.dropWhile (fun c => c ≠ '/')).reverse

/-- Split on every occurrence of `c` (Go's `strings.Split`). -/
def splitL (c : Char) : List Char → List (List Char)
  | [] => [[]]
  | x :: xs =>
      let r := splitL c xs
      if x = c then [] :: r
      else
        match r with
        | [] => [[x]]
        | h :: t => (x :: h) :: t

/-- Join segments with a separator character. -/
def interL (sep : Char) : List (List Char) → List Char
  | [] => []
  | [x] => x
  | x :: xs => x ++ sep :: interL sep xs

/-- Model of `net/url.resolvePath` (RFC 3986 §5.3 merge +
remove_dot_segments): merge `ref` onto the directory of `base` unless it
is absolute, then process `.`/`..` segments, keeping a trailing slash
after a final `.`/`..` segment.  The result keeps its leading `/`. -/
def resolvePath (base ref : String) : String :=
  let full : List Char :=
    if ref = "" then base.data
    else if ¬ (isPrefixOfL ['/'] ref.data = true) then upToLastSlash base.data ++ ref.data
    else ref.data
  if full = [] then ""
  else
    let segs := (splitL '/' full).drop 1
    let out := segs.foldl (fun dst e =>
      if e = ['.'] then dst
      else if e = ['.', '.'] then dst.dropLast
      else dst ++ [e]) []
    let out2 := match segs.getLast? with
      | some e => if e = ['.'] ∨ e = ['.', '.'] then out ++ [[]] else out
      | none => out
    String.mk ('/' :: interL '/' out2)

/-- Model of `(*url.URL).ResolveReference`: an absolute reference wins
outright; otherwise inherit the base scheme; a reference with an
authority keeps it; an empty path with no query keeps the base path and
query; otherwise merge the paths. -/
def resolveReference (u ref : GoURL) : GoURL :=
  let url0 := { ref with scheme := if ref.scheme = "" then u.scheme else ref.scheme }
  if ref.scheme ≠ "" ∨ ref.hasHost then
    { url0 with path := resolvePath ref.path "" }
  else
    let url1 :=
      if ref.path = "" ∧ ¬ ref.hasQuery then
        { url0 with hasQuery := u.hasQuery, query := u.query,
                    fragment := if ref.fragment = "" then u.fragment else ref.fragment }
      else url0
    { url1 with hasHost := u.hasHost, host := u.host,
                path := resolvePath u.path ref.path }

/-- Model of `(*url.URL).String`: `scheme:`, `//host` when an authority
is present, path, `?query`, `#fragment`. -/
def urlString (u : GoURL) : String :=
  String.mk
    ((if u.scheme ≠ "" then u.scheme.data ++ [':'] else []) ++
     (if u.hasHost then ['/', '/'] ++ u.host.data else []) ++
     u.path.data ++
     (if u.hasQuery then '?' :: u.query.data else []) ++
     (if u.fragment ≠ "" then '#' :: u.fragment.data else []))

/-- `CleanHref` (the repository's link resolver): trim; drop empty and
fragment-only hrefs; drop `javascript:`/`data:` (case-insensitive);
otherwise resolve against the base URL (given a trailing `/`), strip the
fragment and print.  An unparseable href is resolved as a bare path. -/
def CleanHref (base href : String) : String :=
  let href := strTrim href
  if href = "" ∨ hasPrefixB "#" href = true then ""
  else
    let lower := strToLower href
    if hasPrefixB "javascript:" lower = true ∨ hasPrefixB "data:" lower = true then ""
    else
      let base := if hasSuffixB base "/" = true then base else base ++ "/"
      match urlParse base with
      | none => ""
      | some baseURL =>
          let refURL := match urlParse href with
            | some u => u
            | none => { scheme := "", hasHost := false, host := "", path := href,
                        hasQuery := false, query := "", fragment := "" }
          let u := resolveReference baseURL refURL
          urlString { u with fragment := "" }

/-- The crawl loop (crawl.go): pop the FIFO frontier, skip visited URLs,
append fresh ones to the breadth-first output, fetch the page (the
network is the oracle `fetch`, returning the page's raw hrefs or `none`
on a download error, which is skipped), clean each href against the
current page, and enqueue same-host unvisited results. -/
def crawlLoop (fetch : String → Option (List String)) (hostBase : String)
    (max : Nat) (visited queue order : List String) : List String :=
  match queue with
  | [] => order
  | cur :: rest =>
      if h : order.length < max then
        if cur ∈ visited then crawlLoop fetch hostBase max visited rest order
        else
          let visited2 := cur :: visited
          let order2 := order ++ [cur]
          match fetch cur with
          | none => crawlLoop fetch hostBase max visited2 rest order2
          | some hrefs =>
              let fresh := hrefs.filterMap (fun hr =>
                let abs := CleanHref cur hr
                if abs = "" then none
                else if ¬ (hasPrefixB hostBase abs = true) then none
                else if abs ∈ visited2 then none else some abs)
              crawlLoop fetch hostBase max visited2 (rest ++ fresh) order2
      else order
termination_by (max - order.length, queue.length)
decreasing_by
  · apply Prod.Lex.right
    simp
  · apply Prod.Lex.left
    simp only [List.length_append, List.length_cons, List.length_nil]
    omega
  · apply Prod.Lex.left
    simp only [List.length_append, List.length_cons, List.length_nil]
    omega

/-- `Crawl` (crawl.go): empty output for a non-positive page budget,
error for an unparseable start URL, else run the loop seeded with the
start URL; `hostBase` is the start's `scheme://host/` prefix used for the
same-host check. -/
def Crawl (fetch : String → Option (List String)) (start : String)
    (max : Nat) : Option (List String) :=
  if max = 0 then some []
  else
    match urlParse start with
    | none => none
    | some startURL =>
        let hostBase := startURL.scheme ++ "://" ++ startURL.host ++ "/"
        some (crawlLoop fetch hostBase max [] [start] [])

/-- An HTML DOM node as produced by `html.Parse`: text nodes and element
nodes with attributes and children (the walker also visits the document
root as an element).  Parse failures yield empty results in the source
and are outside this tree-level embedding. -/
inductive HNode where
  | text (s : String)
  | elem (tag : String) (attrs : List (String × String)) (children : List HNode)

/-- Case-insensitive tag/attribute comparison (`strings.EqualFold`,
ASCII range). -/
def eqFoldB (a b : String) : Bool :=
  strToLower a = strToLower b

/-- Is this element a `script` or `style` boundary? -/
def isSkipTag (t : String) : Bool :=
  eqFoldB t "script" || eqFoldB t "style"

/-- A word character for the extractor's token regexp (letters or digits;
the Go regexp classes are Unicode, modeled here over the ASCII range the
corpus uses). -/
def isWordChar (c : Char) : Bool :=
  c.isAlpha || c.isDigit

/-- Maximal runs of word characters in a character list. -/
def wordRuns : List Char → List (List Char)
  | [] => []
  | c :: cs =>
      let r := wordRuns cs
      if isWordChar c then
        match cs with
        | c2 :: _ =>
            if isWordChar c2 then
              match r with
              | [] => [[c]]
              | h :: t => (c :: h) :: t
            else [c] :: r
        | [] => [[c]]
      else r

/-- The extractor's text tokenization: maximal letter/digit runs,
lowercased. -/
def tokenize (s : String) : List String :=
  (wordRuns s.data).map (fun l => strToLower (String.mk l))

mutual

/-- The walker of `Extract`: text nodes contribute lowercased tokens when
no `script`/`style` boundary is open; an `a` element contributes its
trimmed nonempty `href` attribute values; a `script`/`style` element
raises the skip depth for itself and its subtree. -/
def nodeWalk (skip : Nat) : HNode → List String × List String
  | .text s => (if skip = 0 then tokenize s else [], [])
  | .elem tag attrs children =>
      let skip2 := if isSkipTag tag then skip + 1 else skip
      let own : List String :=
        if skip2 = 0 && eqFoldB tag "a" then
          attrs.filterMap (fun kv =>
            if eqFoldB kv.1 "href" then
              let v := strTrim kv.2
              if v = "" then none else some v
            else none)
        else []
      let rest := nodesWalk skip2 children
      (rest.1, own ++ rest.2)

/-- Walk a child list in document order, concatenating results. -/
def nodesWalk (skip : Nat) : List HNode → List String × List String
  | [] => ([], [])
  | n :: ns =>
      let a := nodeWalk skip n
      let b := nodesWalk skip ns
      (a.1 ++ b.1, a.2 ++ b.2)

end

/-- `Extract` (the HTML extractor): tokens from visible text and raw-ish
hrefs of anchors, walking the parsed tree from the root with skip
depth 0. -/
def Extract (root : HNode) : List String × List String :=
  nodeWalk 0 root

mutual

/-- Modelled from the spec's words for the claim comparison: the href
attribute values of anchor elements outside `script`/`style` subtrees,
captured verbatim (no trimming, no dropping) in document order. -/
def specVerbatimHrefs (skip : Nat) : HNode → List String
  | .text _ => []
  | .elem tag attrs children =>
      let skip2 := if isSkipTag tag then skip + 1 else skip
      let own : List String :=
        if skip2 = 0 && eqFoldB tag "a" then
          attrs.filterMap (fun kv => if eqFoldB kv.1 "href" then some kv.2 else none)
        else []
      own ++ specVerbatimHrefsList skip2 children

/-- Child-list version of `specVerbatimHrefs`. -/
def specVerbatimHrefsList (skip : Nat) : List HNode → List String
  | [] => []
  | n :: ns => specVerbatimHrefs skip n ++ specVerbatimHrefsList skip ns

end

/-- `lessHit` unfolded: score strictly greater, or equal scores and URL
strictly smaller. -/
theorem lessHit_iff (a b : Hit) :
    lessHit a b ↔ (a.Score > b.Score ∨ (a.Score = b.Score ∧ a.URL < b.URL)) := by
  unfold lessHit
  by_cases h : a.Score = b.Score
  · simp [h, lt_irrefl]
  · simp [h]

/-- An `entryLE` step between entries with different URLs is strict. -/
theorem entryLT_of_entryLE_ne (N df : Nat) (a b : SEntry)
    (h : entryLE N df a b) (hne : a.1 ≠ b.1) : entryLT N df a b := by
  rcases h with h | ⟨heq, hle⟩
  · exact Or.inl h
  · exact Or.inr ⟨heq, lt_of_le_of_ne hle hne⟩

/-- Real-cast comparison of the rational term frequencies. -/
theorem tfR_lt_iff (a b : SEntry) :
    ((a.2.1 : ℚ) / (a.2.2 : ℚ) < (b.2.1 : ℚ) / (b.2.2 : ℚ)) ↔
      ((a.2.1 : ℝ) / (a.2.2 : ℝ) < (b.2.1 : ℝ) / (b.2.2 : ℝ)) := by
  rw [← Rat.cast_lt (K := ℝ)]
  push_cast
  exact Iff.rfl

/-- Real-cast equality of the rational term frequencies. -/
theorem tfR_eq_iff (a b : SEntry) :
    ((a.2.1 : ℚ) / (a.2.2 : ℚ) = (b.2.1 : ℚ) / (b.2.2 : ℚ)) ↔
      ((a.2.1 : ℝ) / (a.2.2 : ℝ) = (b.2.1 : ℝ) / (b.2.2 : ℝ)) := by
  rw [← Rat.cast_inj (α := ℝ)]
  push_cast
  exact Iff.rfl

/-- The executable entry order agrees with the source comparator
`lessHit` on the realized scores, for positive `N` and `df`. -/
theorem lessHit_mkHit_iff (N df : Nat) (hN : 0 < N) (hdf : 0 < df)
    (a b : SEntry) :
    lessHit (mkHit N df a) (mkHit N df b) ↔ entryLT N df a b := by
  have hdfR : (0 : ℝ) < (df : ℝ) := by exact_mod_cast hdf
  rw [lessHit_iff]
  show ((a.2.1 : ℝ) / (a.2.2 : ℝ) * Real.log ((N : ℝ) / (df : ℝ)) >
          (b.2.1 : ℝ) / (b.2.2 : ℝ) * Real.log ((N : ℝ) / (df : ℝ)) ∨
        ((a.2.1 : ℝ) / (a.2.2 : ℝ) * Real.log ((N : ℝ) / (df : ℝ)) =
          (b.2.1 : ℝ) / (b.2.2 : ℝ) * Real.log ((N : ℝ) / (df : ℝ)) ∧
         a.1 < b.1)) ↔ entryLT N df a b
  unfold entryLT
  rcases lt_trichotomy df N with hlt | heq | hgt
  · -- idf > 0: bigger tf sorts first
    have hL : 0 < Real.log ((N : ℝ) / (df : ℝ)) :=
      Real.log_pos ((one_lt_div hdfR).mpr (by exact_mod_cast hlt))
    have hlt1 : qkey N df a < qkey N df b ↔
        (b.2.1 : ℝ) / (b.2.2 : ℝ) * Real.log ((N : ℝ) / (df : ℝ)) <
          (a.2.1 : ℝ) / (a.2.2 : ℝ) * Real.log ((N : ℝ) / (df : ℝ)) := by
      unfold qkey
      rw [if_pos hlt, if_pos hlt, neg_lt_neg_iff, tfR_lt_iff, mul_lt_mul_right hL]
    have heq1 : qkey N df a = qkey N df b ↔
        (a.2.1 : ℝ) / (a.2.2 : ℝ) * Real.log ((N : ℝ) / (df : ℝ)) =
          (b.2.1 : ℝ) / (b.2.2 : ℝ) * Real.log ((N : ℝ) / (df : ℝ)) := by
      unfold qkey
      rw [if_pos hlt, if_pos hlt, neg_inj, tfR_eq_iff]
      exact ⟨fun h => by rw [h], fun h => mul_right_cancel₀ hL.ne' h⟩
    rw [hlt1, heq1]
  · -- idf = 0: all scores are zero, order by URL
    have hL : Real.log ((N : ℝ) / (df : ℝ)) = 0 := by
      rw [show ((N : ℝ)) = (df : ℝ) from by exact_mod_cast heq.symm,
        div_self hdfR.ne']
      exact Real.log_one
    have hn1 : ¬ df < N := by omega
    have hn2 : ¬ N < df := by omega
    rw [hL, mul_zero]
    unfold qkey
    simp [hn1, hn2, lt_irrefl]
  · -- idf < 0 (df > N): smaller tf sorts first
    have hL : Real.log ((N : ℝ) / (df : ℝ)) < 0 :=
      Real.log_neg (by positivity) ((div_lt_one hdfR).mpr (by exact_mod_cast hgt))
    have hnl : ¬ df < N := by omega
    have hlt1 : qkey N df a < qkey N df b ↔
        (b.2.1 : ℝ) / (b.2.2 : ℝ) * Real.log ((N : ℝ) / (df : ℝ)) <
          (a.2.1 : ℝ) / (a.2.2 : ℝ) * Real.log ((N : ℝ) / (df : ℝ)) := by
      unfold qkey
      rw [if_neg hnl, if_neg hnl, if_pos hgt, if_pos hgt, tfR_lt_iff,
        mul_lt_mul_right_of_neg hL]
    have heq1 : qkey N df a = qkey N df b ↔
        (a.2.1 : ℝ) / (a.2.2 : ℝ) * Real.log ((N : ℝ) / (df : ℝ)) =
          (b.2.1 : ℝ) / (b.2.2 : ℝ) * Real.log ((N : ℝ) / (df : ℝ)) := by
      unfold qkey
      rw [if_neg hnl, if_neg hnl, if_pos hgt, if_pos hgt, tfR_eq_iff]
      exact ⟨fun h => by rw [h], fun h => mul_right_cancel₀ hL.ne h⟩
    rw [hlt1, heq1]

/-- Build an in-memory index by a sequence of `AddDocument` calls. -/
def buildMem (stem : String → String) (stop : List String)
    (ops : List (String × List String)) : InMemIndexer :=
  ops.foldl (fun a p => a.AddDocument stem p.1 p.2) (InMemIndexer.new stop)

/-- State invariant of the in-memory indexer: `N` counts the documents,
the document list has no duplicates and is the domain of `docLen`,
postings only mention present documents, `df` counts the documents with a
nonzero posting, and a document's postings are bounded by its length. -/
def InMemInv (idx : InMemIndexer) : Prop :=
  idx.N = idx.docs.length ∧
  idx.docs.Nodup ∧
  (∀ u, (idx.docLen u).isSome ↔ u ∈ idx.docs) ∧
  (∀ s u, idx.tf s u ≠ 0 → u ∈ idx.docs) ∧
  (∀ s, idx.dfm s = idx.docs.countP (fun u => idx.tf s u != 0)) ∧
  (∀ u k, idx.docLen u = some k → ∀ s, idx.tf s u ≤ k)

/-- The empty index satisfies the invariant. -/
theorem inMemInv_new (stop : List String) : InMemInv (InMemIndexer.new stop) := by
  refine ⟨rfl, List.nodup_nil, ?_, ?_, ?_, ?_⟩
  · intro u; simp [InMemIndexer.new]
  · intro s u h; simp [InMemIndexer.new] at h
  · intro s; simp [InMemIndexer.new]
  · intro u k h; simp [InMemIndexer.new] at h

/-- `AddDocument` preserves the invariant. -/
theorem inMemInv_add (stem : String → String) (idx : InMemIndexer)
    (doc : String) (words : List String) (hinv : InMemInv idx) :
    InMemInv (idx.AddDocument stem doc words) := by
  obtain ⟨hN, hnd, hdl, htf, hdf, hlen⟩ := hinv
  unfold InMemIndexer.AddDocument
  by_cases hdup : (idx.docLen doc).isSome
  · rw [if_pos hdup]
    exact ⟨hN, hnd, hdl, htf, hdf, hlen⟩
  · rw [if_neg hdup]
    have hfresh : doc ∉ idx.docs := fun hmem => hdup ((hdl doc).mpr hmem)
    have htf0 : ∀ s, idx.tf s doc = 0 := by
      intro s
      by_contra h
      exact hfresh (htf s doc h)
    set stems := processWords stem idx.stop words with hstems
    refine ⟨?_, ?_, ?_, ?_, ?_, ?_⟩
    · simp [hN]
    · simp [List.nodup_append, hnd, hfresh]
    · intro u
      by_cases hu : u = doc <;> simp [hu, hdl]
    · intro s u h
      simp only at h
      by_cases hu : u = doc
      · simp [hu]
      · rw [if_neg hu] at h
        exact List.mem_append.mpr (Or.inl (htf s u h))
    · intro s
      simp only [List.countP_append]
      have h1 : idx.docs.countP
          (fun u => (if u = doc then idx.tf s u + stems.count s else idx.tf s u) != 0) =
          idx.docs.countP (fun u => idx.tf s u != 0) := by
        apply List.countP_congr
        intro u hu
        have : u ≠ doc := fun h => hfresh (h ▸ hu)
        simp [this]
      have h2 : List.countP
          (fun u => (if u = doc then idx.tf s u + stems.count s else idx.tf s u) != 0)
          [doc] = if s ∈ stems then 1 else 0 := by
        have hcnt : (if doc = doc then idx.tf s doc + stems.count s
            else idx.tf s doc) = stems.count s := by
          rw [if_pos rfl, htf0 s, Nat.zero_add]
        rw [List.countP_singleton, hcnt]
        by_cases hs : s ∈ stems
        · have hpos : 0 < List.count s stems := List.count_pos_iff.mpr hs
          rw [if_pos hs, if_pos (by simpa using hpos.ne')]
        · rw [if_neg hs, List.count_eq_zero_of_not_mem hs]
          simp
      rw [h1, h2, hdf s]
      by_cases hs : s ∈ stems <;> simp [hs]
    · intro u k hk s
      simp only at hk ⊢
      by_cases hu : u = doc
      · subst hu
        rw [if_pos rfl] at hk
        rw [if_pos rfl]
        have hk2 : stems.length = k := Option.some.inj hk
        rw [htf0 s, Nat.zero_add, ← hk2]
        exact List.count_le_length s stems
      · rw [if_neg hu] at hk
        rw [if_neg hu]
        exact hlen u k hk s

/-- The invariant holds for every index built by a sequence of adds. -/
theorem inMemInv_buildMem (stem : String → String) (stop : List String)
    (ops : List (String × List String)) : InMemInv (buildMem stem stop ops) := by
  unfold buildMem
  have hgen : ∀ (l : List (String × List String)) (a : InMemIndexer), InMemInv a →
      InMemInv (l.foldl (fun a p => a.AddDocument stem p.1 p.2) a) := by
    intro l
    induction l with
    | nil => intro a h; exact h
    | cons p t ih =>
        intro a h
        exact ih _ (inMemInv_add stem a p.1 p.2 h)
  exact hgen ops _ (inMemInv_new stop)

/-- URL components of entries produced by a per-document `filterMap` form
a sublist of the document list. -/
theorem map_fst_filterMap_sublist (l : List String) (f : String → Option SEntry)
    (hf : ∀ d e, f d = some e → e.1 = d) :
    ((l.filterMap f).map Prod.fst).Sublist l := by
  induction l with
  | nil => simp
  | cons a t ih =>
      rw [List.filterMap_cons]
      cases hfa : f a with
      | none => exact ih.cons a
      | some e =>
          rw [List.map_cons, hf a e hfa]
          exact ih.cons₂ a

/-- Entries of the in-memory search keep their document as URL. -/
theorem inMem_entriesFor_fst (idx : InMemIndexer) (s : String) :
    ∀ d e, (if idx.tf s d = 0 then none
      else
        let den := (idx.docLen d).getD 0
        if den = 0 then none else some (d, idx.tf s d, den)) = some e → e.1 = d := by
  intro d e h
  simp only at h
  split_ifs at h
  exact (Option.some.inj h).symm ▸ rfl

/-- The URL components of the in-memory entries are distinct for a
duplicate-free document list. -/
theorem inMem_entriesFor_nodup (idx : InMemIndexer) (s : String)
    (hnd : idx.docs.Nodup) : ((idx.entriesFor s).map Prod.fst).Nodup :=
  (map_fst_filterMap_sublist idx.docs _ (inMem_entriesFor_fst idx s)).nodup hnd

/-- Sorting entries with distinct URLs and realizing the scores yields a
list pairwise-ordered by the source comparator. -/
theorem pairwise_lessHit_sorted (N df : Nat) (hN : 0 < N) (hdf : 0 < df)
    (entries : List SEntry) (hnd : (entries.map Prod.fst).Nodup) :
    ((List.insertionSort (entryLE N df) entries).map (mkHit N df)).Pairwise
      lessHit := by
  have hsorted := List.sorted_insertionSort (entryLE N df) entries
  have hperm := List.perm_insertionSort (entryLE N df) entries
  have hnd2 : ((List.insertionSort (entryLE N df) entries).map Prod.fst).Nodup :=
    ((hperm.map Prod.fst).nodup_iff).mpr hnd
  have hne : (List.insertionSort (entryLE N df) entries).Pairwise
      (fun a b => a.1 ≠ b.1) := List.pairwise_map.mp hnd2
  have hstrict : (List.insertionSort (entryLE N df) entries).Pairwise
      (entryLT N df) :=
    (hsorted.and hne).imp (fun h => entryLT_of_entryLE_ne N df _ _ h.1 h.2)
  exact List.pairwise_map.mpr
    (hstrict.imp (fun h => (lessHit_mkHit_iff N df hN hdf _ _).mpr h))

/-- Every in-memory search result is pairwise ordered by `lessHit`. -/
theorem inMem_search_pairwise (stem : String → String) (idx : InMemIndexer)
    (term : String) (hinv : InMemInv idx) :
    (idx.Search stem term).Pairwise lessHit := by
  unfold InMemIndexer.Search
  dsimp only
  split_ifs with h1 h2 h3
  · exact List.Pairwise.nil
  · exact List.Pairwise.nil
  · exact List.Pairwise.nil
  · have hN : 0 < idx.N := by
      rcases Nat.eq_zero_or_pos idx.N with h | h
      · exact absurd (Or.inr h) h1
      · exact h
    exact pairwise_lessHit_sorted idx.N _ hN (Nat.pos_of_ne_zero h3) _
      (inMem_entriesFor_nodup idx _ hinv.2.1)

/-- Claim C5: the result comparator is exactly "score strictly greater,
ties broken by URL strictly smaller"; it is asymmetric and total on hits
with distinct URLs (so no two distinct returned hits compare equal and
the sorted output is uniquely determined); and every result list of the
in-memory `Search`, over any corpus built by `AddDocument` calls, is
pairwise strictly ordered by it. -/
theorem claim5_deterministic_ranking (stem : String → String)
    (stop : List String) (ops : List (String × List String)) (term : String) :
    (∀ a b : Hit, lessHit a b ↔
        (a.Score > b.Score ∨ (a.Score = b.Score ∧ a.URL < b.URL))) ∧
    (∀ a b : Hit, ¬ (lessHit a b ∧ lessHit b a)) ∧
    (∀ a b : Hit, a.URL = b.URL ∨ lessHit a b ∨ lessHit b a) ∧
    ((buildMem stem stop ops).Search stem term).Pairwise lessHit := by
  refine ⟨lessHit_iff, ?_, ?_, ?_⟩
  · intro a b ⟨hab, hba⟩
    rw [lessHit_iff] at hab hba
    rcases hab with h1 | ⟨h1, hu1⟩ <;> rcases hba with h2 | ⟨h2, hu2⟩
    · exact absurd (h1.trans h2) (lt_irrefl _)
    · exact absurd h1 (h2 ▸ lt_irrefl _)
    · exact absurd h2 (h1 ▸ lt_irrefl _)
    · exact absurd (hu1.trans hu2) (lt_irrefl _)
  · intro a b
    rcases lt_trichotomy a.Score b.Score with h | h | h
    · exact Or.inr (Or.inr ((lessHit_iff b a).mpr (Or.inl h)))
    · rcases lt_trichotomy a.URL b.URL with hu | hu | hu
      · exact Or.inr (Or.inl ((lessHit_iff a b).mpr (Or.inr ⟨h, hu⟩)))
      · exact Or.inl hu
      · exact Or.inr (Or.inr ((lessHit_iff b a).mpr (Or.inr ⟨h.symm, hu⟩)))
    · exact Or.inr (Or.inl ((lessHit_iff a b).mpr (Or.inl h)))
  · exact inMem_search_pairwise stem _ term (inMemInv_buildMem stem stop ops)

/-- For an invariant-respecting in-memory index, `Search` is empty
exactly on the four guard conditions. -/
theorem inMem_search_empty_iff (stem : String → String) (idx : InMemIndexer)
    (term : String) (hinv : InMemInv idx) :
    (idx.Search stem term = [] ↔
      (term = "" ∨ idx.N = 0 ∨ strToLower term ∈ idx.stop ∨
        idx.dfm (stem (strToLower term)) = 0)) := by
  obtain ⟨hN, hnd, hdl, htf, hdf, hlen⟩ := hinv
  unfold InMemIndexer.Search
  dsimp only
  split_ifs with h1 h2 h3
  · simp only [true_iff]
    rcases h1 with h | h
    · exact Or.inl h
    · exact Or.inr (Or.inl h)
  · exact iff_of_true rfl (Or.inr (Or.inr (Or.inl h2)))
  · exact iff_of_true rfl (Or.inr (Or.inr (Or.inr h3)))
  · push_neg at h1
    refine iff_of_false ?_ ?_
    · -- the entry list is nonempty, hence so is the sorted, scored output
      set s := stem (strToLower term) with hs
      have hpos : 0 < idx.docs.countP (fun u => idx.tf s u != 0) := by
        rw [← hdf s]
        exact Nat.pos_of_ne_zero h3
      obtain ⟨u, hu, hp⟩ := List.countP_pos_iff.mp hpos
      have htfu : idx.tf s u ≠ 0 := by simpa using hp
      obtain ⟨k, hk⟩ := Option.isSome_iff_exists.mp ((hdl u).mpr hu)
      have hkpos : k ≠ 0 := fun h0 => htfu (Nat.le_zero.mp (h0 ▸ hlen u k hk s))
      have hmem : ((u, idx.tf s u, k) : SEntry) ∈ idx.entriesFor s := by
        unfold InMemIndexer.entriesFor
        refine List.mem_filterMap.mpr ⟨u, hu, ?_⟩
        rw [if_neg htfu]
        simp only [hk, Option.getD_some]
        rw [if_neg hkpos]
      intro hempty
      rw [List.map_eq_nil_iff] at hempty
      have := (List.perm_insertionSort (entryLE idx.N (idx.dfm s))
        (idx.entriesFor s)).symm.mem_iff.mp hmem
      rw [hempty] at this
      exact List.not_mem_nil _ this
    · rintro (h | h | h | h)
      · exact h1.1 h
      · exact h1.2 h
      · exact h2 h
      · exact h3 h

/-- Build a project03 SQLite index by a sequence of `AddDocument` calls. -/
def buildSql (stem : String → String) (stop : List String)
    (ops : List (String × List String)) : SQLiteIndexer :=
  ops.foldl (fun a p => a.AddDocument stem p.1 p.2) (SQLiteIndexer.new stop)

/-- State invariant of the SQLite model: unique-keyed tables, and every
posting row references a present URL and a present word. -/
def SQLiteInv (q : SQLiteIndexer) : Prop :=
  q.urls.Nodup ∧ q.words.Nodup ∧
  (∀ u w, q.hitsTab u w ≠ 0 → u ∈ q.urls ∧ w ∈ q.words)

/-- The empty database satisfies the invariant. -/
theorem sqliteInv_new (stop : List String) : SQLiteInv (SQLiteIndexer.new stop) := by
  refine ⟨List.nodup_nil, List.nodup_nil, ?_⟩
  intro u w h
  simp [SQLiteIndexer.new] at h

/-- `SQLiteIndexer.AddDocument` preserves the invariant. -/
theorem sqliteInv_add (stem : String → String) (q : SQLiteIndexer)
    (doc : String) (words : List String) (hinv : SQLiteInv q) :
    SQLiteInv (q.AddDocument stem doc words) := by
  obtain ⟨hu, hw, hh⟩ := hinv
  unfold SQLiteIndexer.AddDocument
  set stems := processWords stem q.stop words with hstems
  refine ⟨?_, ?_, ?_⟩
  · by_cases hd : doc ∈ q.urls
    · simpa [hd] using hu
    · simp [hd, List.nodup_append, hu]
  · simp only
    rw [List.nodup_append]
    refine ⟨hw, (List.nodup_dedup stems).filter _, ?_⟩
    intro w hw1 hw2
    have := (List.mem_filter.mp hw2).2
    simp at this
    exact this hw1
  · intro u w h
    simp only at h ⊢
    constructor
    · by_cases hcase : u = doc ∧ w ∈ stems
      · rw [hcase.1]
        by_cases hd : doc ∈ q.urls
        · simp [hd]
        · simp [hd]
      · rw [if_neg hcase] at h
        have := (hh u w h).1
        by_cases hd : doc ∈ q.urls
        · simpa [hd] using this
        · simp [hd, this]
    · by_cases hcase : u = doc ∧ w ∈ stems
      · by_cases hq : w ∈ q.words
        · exact List.mem_append.mpr (Or.inl hq)
        · exact List.mem_append.mpr (Or.inr (List.mem_filter.mpr
            ⟨List.mem_dedup.mpr hcase.2, by simpa using hq⟩))
      · rw [if_neg hcase] at h
        exact List.mem_append.mpr (Or.inl (hh u w h).2)

/-- The invariant holds for every database built by a sequence of adds. -/
theorem sqliteInv_buildSql (stem : String → String) (stop : List String)
    (ops : List (String × List String)) : SQLiteInv (buildSql stem stop ops) := by
  unfold buildSql
  have hgen : ∀ (l : List (String × List String)) (a : SQLiteIndexer), SQLiteInv a →
      SQLiteInv (l.foldl (fun a p => a.AddDocument stem p.1 p.2) a) := by
    intro l
    induction l with
    | nil => intro a h; exact h
    | cons p t ih =>
        intro a h
        exact ih _ (sqliteInv_add stem a p.1 p.2 h)
  exact hgen ops _ (sqliteInv_new stop)

/-- For an invariant-respecting SQLite database, `Search` is empty
exactly on the four guard conditions (here `N` is the `urls` row count
and `df` the posting-row count of the stem). -/
theorem sqlite_search_empty_iff (stem : String → String) (q : SQLiteIndexer)
    (term : String) (hinv : SQLiteInv q) :
    (q.Search stem term = [] ↔
      (term = "" ∨ q.urls.length = 0 ∨ strToLower term ∈ q.stop ∨
        q.dfOf (stem (strToLower term)) = 0)) := by
  obtain ⟨hu, hw, hh⟩ := hinv
  unfold SQLiteIndexer.Search
  dsimp only
  split_ifs with h1 h2 h3 h4
  · exact iff_of_true rfl (Or.inl h1)
  · exact iff_of_true rfl (Or.inr (Or.inr (Or.inl h2)))
  · exact iff_of_true rfl (Or.inr (Or.inl h3))
  · exact iff_of_true rfl (Or.inr (Or.inr (Or.inr h4)))
  · refine iff_of_false ?_ ?_
    · set s := stem (strToLower term) with hs
      have hpos : 0 < q.urls.countP (fun u => q.hitsTab u s != 0) :=
        Nat.pos_of_ne_zero h4
      obtain ⟨u, hmem, hp⟩ := List.countP_pos_iff.mp hpos
      have htfu : q.hitsTab u s ≠ 0 := by simpa using hp
      have hsw : s ∈ q.words := (hh u s htfu).2
      have htw : q.hitsTab u s ≤ q.totalWords u := by
        unfold SQLiteIndexer.totalWords
        exact List.single_le_sum (fun x _ => Nat.zero_le x) _
          (List.mem_map_of_mem _ hsw)
      have htwne : q.totalWords u ≠ 0 := fun h0 =>
        htfu (Nat.le_zero.mp (h0 ▸ htw))
      have hment : ((u, q.hitsTab u s, q.totalWords u) : SEntry) ∈
          q.entriesFor s := by
        unfold SQLiteIndexer.entriesFor
        refine List.mem_filterMap.mpr ⟨u, hmem, ?_⟩
        rw [if_neg htfu]
        simp only
        rw [if_neg htwne]
      intro hempty
      rw [List.map_eq_nil_iff] at hempty
      have := (List.perm_insertionSort (entryLE q.urls.length (q.dfOf s))
        (q.entriesFor s)).symm.mem_iff.mp hment
      rw [hempty] at this
      exact List.not_mem_nil _ this
    · rintro (h | h | h | h)
      · exact h1 h
      · exact h3 h
      · exact h2 h
      · exact h4 h

/-- The stopword set of the in-memory index never changes. -/
theorem buildMem_stop (stem : String → String) (stop : List String)
    (ops : List (String × List String)) : (buildMem stem stop ops).stop = stop := by
  unfold buildMem
  have hgen : ∀ (l : List (String × List String)) (a : InMemIndexer),
      (l.foldl (fun a p => a.AddDocument stem p.1 p.2) a).stop = a.stop := by
    intro l
    induction l with
    | nil => intro a; rfl
    | cons p t ih =>
        intro a
        rw [List.foldl_cons, ih]
        unfold InMemIndexer.AddDocument
        by_cases hdup : (a.docLen p.1).isSome
        · rw [if_pos hdup]
        · rw [if_neg hdup]
  exact hgen ops _

/-- The stopword set of the SQLite index never changes. -/
theorem buildSql_stop (stem : String → String) (stop : List String)
    (ops : List (String × List String)) : (buildSql stem stop ops).stop = stop := by
  unfold buildSql
  have hgen : ∀ (l : List (String × List String)) (a : SQLiteIndexer),
      (l.foldl (fun a p => a.AddDocument stem p.1 p.2) a).stop = a.stop := by
    intro l
    induction l with
    | nil => intro a; rfl
    | cons p t ih =>
        intro a
        rw [List.foldl_cons, ih]
        rfl
  exact hgen ops _

/-- Claim C4: over any corpus built by `AddDocument` calls, `Search`
returns an empty result (and, in this errorless embedding, no error)
exactly when the term is empty, the document count is zero, the
lowercased term is a stopword, or the stemmed term has document
frequency zero — on both the in-memory backend and the SQLite backend;
in particular a stopword query is always empty. -/
theorem claim4_empty_result_iff (stem : String → String) (stop : List String)
    (ops : List (String × List String)) (term : String) :
    ((buildMem stem stop ops).Search stem term = [] ↔
      (term = "" ∨ (buildMem stem stop ops).N = 0 ∨ strToLower term ∈ stop ∨
        (buildMem stem stop ops).dfm (stem (strToLower term)) = 0)) ∧
    ((buildSql stem stop ops).Search stem term = [] ↔
      (term = "" ∨ (buildSql stem stop ops).urls.length = 0 ∨
        strToLower term ∈ stop ∨
        (buildSql stem stop ops).dfOf (stem (strToLower term)) = 0)) := by
  constructor
  · have h := inMem_search_empty_iff stem _ term (inMemInv_buildMem stem stop ops)
    rwa [buildMem_stop stem stop ops] at h
  · have h := sqlite_search_empty_iff stem _ term (sqliteInv_buildSql stem stop ops)
    rwa [buildSql_stop stem stop ops] at h

/-- Claim C10: in the in-memory indexer, after any sequence of
`AddDocument` calls, every stem with positive document frequency has
`df ≤ N`; consequently the `idf = ln (N / df)` used by `Search` is
non-negative and every returned hit's score is non-negative. -/
theorem claim10_df_le_N_nonneg_scores (stem : String → String)
    (stop : List String) (ops : List (String × List String)) :
    (∀ s, 0 < (buildMem stem stop ops).dfm s →
      (buildMem stem stop ops).dfm s ≤ (buildMem stem stop ops).N) ∧
    (∀ term h, h ∈ (buildMem stem stop ops).Search stem term →
      0 ≤ h.Score) := by
  obtain ⟨hN, hnd, hdl, htf, hdf, hlen⟩ := inMemInv_buildMem stem stop ops
  set idx := buildMem stem stop ops with hidx
  constructor
  · intro s _
    rw [hdf s, hN]
    exact List.countP_le_length _
  · intro term h hmem
    unfold InMemIndexer.Search at hmem
    dsimp only at hmem
    split_ifs at hmem with h1 h2 h3
    · exact absurd hmem (List.not_mem_nil _)
    · exact absurd hmem (List.not_mem_nil _)
    · exact absurd hmem (List.not_mem_nil _)
    · obtain ⟨e, _, rfl⟩ := List.mem_map.mp hmem
      have hNpos : 0 < idx.N := by
        rcases Nat.eq_zero_or_pos idx.N with h0 | h0
        · exact absurd (Or.inr h0) h1
        · exact h0
      have hdfle : idx.dfm (stem (strToLower term)) ≤ idx.N := by
        rw [hdf _, hN]
        exact List.countP_le_length _
      show 0 ≤ ((e.2.1 : ℝ) / (e.2.2 : ℝ)) *
        Real.log ((idx.N : ℝ) / ((idx.dfm (stem (strToLower term))) : ℝ))
      apply mul_nonneg
      · positivity
      · apply Real.log_nonneg
        rw [one_le_div (by exact_mod_cast Nat.pos_of_ne_zero h3)]
        exact_mod_cast hdfle

/-- Witness for C10 on a concrete two-document corpus. -/
theorem claim10_witness :
    (0 < (buildMem (fun w => w) [] [("a", ["x"]), ("b", ["y"])]).dfm "x" ∧
     (buildMem (fun w => w) [] [("a", ["x"]), ("b", ["y"])]).dfm "x" ≤
       (buildMem (fun w => w) [] [("a", ["x"]), ("b", ["y"])]).N) ∧
    (mkHit 2 1 ("a", 1, 1) ∈
       (buildMem (fun w => w) [] [("a", ["x"]), ("b", ["y"])]).Search
         (fun w => w) "x" ∧
     0 ≤ (mkHit 2 1 ("a", 1, 1)).Score) := by
  have hmem : mkHit 2 1 ("a", 1, 1) ∈
      (buildMem (fun w => w) [] [("a", ["x"]), ("b", ["y"])]).Search
        (fun w => w) "x" := by
    rw [show (buildMem (fun w => w) [] [("a", ["x"]), ("b", ["y"])]).Search
        (fun w => w) "x" = [mkHit 2 1 ("a", 1, 1)] from rfl]
    exact List.mem_singleton_self _
  exact ⟨⟨by decide,
      (claim10_df_le_N_nonneg_scores (fun w => w) [] _).1 "x" (by decide)⟩,
    hmem,
    (claim10_df_le_N_nonneg_scores (fun w => w) [] _).2 "x" _ hmem⟩

/-- Over a duplicate-free key list containing `a`, the indicator sum for
`a` is exactly one. -/
theorem sum_ite_count_one (keys : List String) (a : String)
    (hnd : keys.Nodup) (ha : a ∈ keys) :
    (keys.map (fun w => if w = a then 1 else 0)).sum = 1 := by
  induction keys with
  | nil => simp at ha
  | cons k ks ih =>
      rw [List.map_cons, List.sum_cons]
      by_cases hk : k = a
      · rw [if_pos hk]
        have hna : a ∉ ks := hk ▸ (List.nodup_cons.mp hnd).1
        have hz : (ks.map (fun w => if w = a then 1 else 0)).sum = 0 := by
          apply List.sum_eq_zero
          intro x hx
          obtain ⟨w, hw, rfl⟩ := List.mem_map.mp hx
          rw [if_neg (fun he => hna (by rw [← he]; exact hw))]
        rw [hz]
      · rw [if_neg hk, Nat.zero_add]
        exact ih (List.nodup_cons.mp hnd).2
          (List.mem_of_ne_of_mem (fun he => hk he.symm) ha)

/-- Summing the occurrence counts of a list over any duplicate-free
superset of its elements recovers the list's length. -/
theorem sum_count_eq_length (keys l : List String) (hnd : keys.Nodup)
    (hsub : ∀ x ∈ l, x ∈ keys) :
    (keys.map (fun w => l.count w)).sum = l.length := by
  induction l with
  | nil => simp
  | cons a t ih =>
      have hstep : (keys.map (fun w => (a :: t).count w)).sum =
          (keys.map (fun w => t.count w)).sum +
            (keys.map (fun w => if w = a then 1 else 0)).sum := by
        rw [← List.sum_map_add]
        apply congrArg
        apply List.map_congr_left
        intro w _
        rw [List.count_cons]
        by_cases hw : w = a
        · simp [hw]
        · simp [hw, Ne.symm hw]
      rw [hstep, ih (fun x hx => hsub x (List.mem_cons_of_mem a hx)),
        sum_ite_count_one keys a hnd (hsub a (List.mem_cons_self a t))]
      simp

/-- Bisimulation between the in-memory backend and the SQLite backend:
same stopwords, same documents in the same order, matching postings, and
`docLen` equal to the SQL `SUM` of the document's posting counts. -/
def MemSqlRel (a : InMemIndexer) (q : SQLiteIndexer) : Prop :=
  a.stop = q.stop ∧
  a.docs = q.urls ∧
  a.N = q.urls.length ∧
  (∀ s u, a.tf s u = q.hitsTab u s) ∧
  (∀ u, a.docLen u = if u ∈ q.urls then some (q.totalWords u) else none)

/-- The empty backends are related. -/
theorem memSqlRel_new (stop : List String) :
    MemSqlRel (InMemIndexer.new stop) (SQLiteIndexer.new stop) := by
  refine ⟨rfl, rfl, rfl, fun s u => rfl, fun u => ?_⟩
  simp [InMemIndexer.new, SQLiteIndexer.new]

/-- Adding a fresh document preserves the backend bisimulation. -/
theorem memSqlRel_add (stem : String → String) (a : InMemIndexer)
    (q : SQLiteIndexer) (doc : String) (words : List String)
    (hrel : MemSqlRel a q) (hq : SQLiteInv q) (hfresh : doc ∉ q.urls) :
    MemSqlRel (a.AddDocument stem doc words) (q.AddDocument stem doc words) := by
  obtain ⟨hstop, hdocs, hN, htf, hdl⟩ := hrel
  obtain ⟨hqu, hqw, hqh⟩ := hq
  have hdlnone : a.docLen doc = none := by rw [hdl doc, if_neg hfresh]
  have hnotSome : ¬ (a.docLen doc).isSome = true := by rw [hdlnone]; simp
  have hhz : ∀ w, q.hitsTab doc w = 0 := by
    intro w
    by_contra hne
    exact hfresh (hqh doc w hne).1
  set stems := processWords stem q.stop words with hstemsq
  have hstemsa : processWords stem a.stop words = stems := by rw [hstop]
  -- projections of the two updated states
  have haStop : (a.AddDocument stem doc words).stop = a.stop := by
    unfold InMemIndexer.AddDocument
    rw [if_neg hnotSome]
  have haDocs : (a.AddDocument stem doc words).docs = a.docs ++ [doc] := by
    unfold InMemIndexer.AddDocument
    rw [if_neg hnotSome]
  have haN : (a.AddDocument stem doc words).N = a.N + 1 := by
    unfold InMemIndexer.AddDocument
    rw [if_neg hnotSome]
  have haTf : ∀ s u, (a.AddDocument stem doc words).tf s u =
      if u = doc then a.tf s u + stems.count s else a.tf s u := by
    intro s u
    unfold InMemIndexer.AddDocument
    rw [if_neg hnotSome]
    dsimp only
    rw [hstemsa]
  have haLen : ∀ u, (a.AddDocument stem doc words).docLen u =
      if u = doc then some stems.length else a.docLen u := by
    intro u
    unfold InMemIndexer.AddDocument
    rw [if_neg hnotSome]
    dsimp only
    rw [hstemsa]
  have hqStop : (q.AddDocument stem doc words).stop = q.stop := rfl
  have hqUrls : (q.AddDocument stem doc words).urls = q.urls ++ [doc] := by
    unfold SQLiteIndexer.AddDocument
    dsimp only
    rw [if_neg hfresh]
  have hqWords : (q.AddDocument stem doc words).words =
      q.words ++ (stems.dedup.filter (fun w => w ∉ q.words)) := rfl
  have hqHits : ∀ u w, (q.AddDocument stem doc words).hitsTab u w =
      if u = doc ∧ w ∈ stems then stems.count w else q.hitsTab u w := fun u w => rfl
  have hwordsNodup : ((q.AddDocument stem doc words).words).Nodup :=
    (sqliteInv_add stem q doc words ⟨hqu, hqw, hqh⟩).2.1
  have hsubStems : ∀ x ∈ stems, x ∈ (q.AddDocument stem doc words).words := by
    intro x hx
    rw [hqWords]
    by_cases hxw : x ∈ q.words
    · exact List.mem_append.mpr (Or.inl hxw)
    · exact List.mem_append.mpr (Or.inr (List.mem_filter.mpr
        ⟨List.mem_dedup.mpr hx, by simpa using hxw⟩))
  refine ⟨?_, ?_, ?_, ?_, ?_⟩
  · rw [haStop, hqStop, hstop]
  · rw [haDocs, hqUrls, hdocs]
  · rw [haN, hqUrls, hN]
    simp
  · intro s u
    rw [haTf, hqHits]
    by_cases hu : u = doc
    · rw [if_pos hu, hu, htf s doc, hhz s, Nat.zero_add]
      by_cases hs : s ∈ stems
      · rw [if_pos ⟨rfl, hs⟩]
      · rw [if_neg (fun hc => hs hc.2)]
        exact List.count_eq_zero_of_not_mem hs
    · rw [if_neg hu, if_neg (fun hc => hu hc.1)]
      exact htf s u
  · intro u
    rw [haLen, hqUrls]
    by_cases hu : u = doc
    · rw [if_pos hu, hu]
      have hmem : doc ∈ q.urls ++ [doc] :=
        List.mem_append.mpr (Or.inr (List.mem_singleton_self doc))
      rw [if_pos hmem]
      have htw : (q.AddDocument stem doc words).totalWords doc = stems.length := by
        unfold SQLiteIndexer.totalWords
        have hfun : ∀ w ∈ (q.AddDocument stem doc words).words,
            (q.AddDocument stem doc words).hitsTab doc w = stems.count w := by
          intro w _
          rw [hqHits]
          by_cases hs : w ∈ stems
          · rw [if_pos ⟨rfl, hs⟩]
          · rw [if_neg (fun hc => hs hc.2), hhz w,
              List.count_eq_zero_of_not_mem hs]
        rw [List.map_congr_left hfun]
        exact sum_count_eq_length _ stems hwordsNodup hsubStems
      rw [htw]
    · rw [if_neg hu, hdl u]
      have hmemiff : u ∈ q.urls ++ [doc] ↔ u ∈ q.urls := by
        simp [hu]
      have htw : (q.AddDocument stem doc words).totalWords u =
          q.totalWords u := by
        unfold SQLiteIndexer.totalWords
        rw [hqWords, List.map_append, List.sum_append]
        have h1 : ((q.words).map
            (fun w => (q.AddDocument stem doc words).hitsTab u w)) =
            (q.words).map (fun w => q.hitsTab u w) := by
          apply List.map_congr_left
          intro w _
          rw [hqHits, if_neg (fun hc => hu hc.1)]
        have h2 : (((stems.dedup.filter (fun w => w ∉ q.words)).map
            (fun w => (q.AddDocument stem doc words).hitsTab u w))).sum = 0 := by
          apply List.sum_eq_zero
          intro x hx
          obtain ⟨w, hw, rfl⟩ := List.mem_map.mp hx
          rw [hqHits, if_neg (fun hc => hu hc.1)]
          by_contra hne
          have := (hqh u w hne).2
          have hnw := (List.mem_filter.mp hw).2
          simp at hnw
          exact hnw this
        rw [h1, h2, Nat.add_zero]
      by_cases hmem : u ∈ q.urls
      · rw [if_pos ((hmemiff).mpr hmem), if_pos hmem, htw]
      · rw [if_neg (fun hc => hmem (hmemiff.mp hc)), if_neg hmem]

/-- Folding the same duplicate-free add sequence over both backends keeps
them related. -/
theorem memSqlRel_build (stem : String → String) (stop : List String)
    (ops : List (String × List String)) (hnd : (ops.map Prod.fst).Nodup) :
    MemSqlRel (buildMem stem stop ops) (buildSql stem stop ops) := by
  unfold buildMem buildSql
  have hgen : ∀ (l : List (String × List String)) (a : InMemIndexer)
      (q : SQLiteIndexer), MemSqlRel a q → SQLiteInv q →
      (∀ p ∈ l, p.1 ∉ q.urls) → (l.map Prod.fst).Nodup →
      MemSqlRel (l.foldl (fun a p => a.AddDocument stem p.1 p.2) a)
        (l.foldl (fun a p => a.AddDocument stem p.1 p.2) q) := by
    intro l
    induction l with
    | nil => intro a q hrel _ _ _; exact hrel
    | cons p t ih =>
        intro a q hrel hq hall hndl
        rw [List.foldl_cons, List.foldl_cons]
        have hndl2 := hndl
        rw [List.map_cons, List.nodup_cons] at hndl2
        have hfresh : p.1 ∉ q.urls := hall p (List.mem_cons_self p t)
        have hurls : (q.AddDocument stem p.1 p.2).urls = q.urls ++ [p.1] := by
          unfold SQLiteIndexer.AddDocument
          dsimp only
          rw [if_neg hfresh]
        apply ih
        · exact memSqlRel_add stem a q p.1 p.2 hrel hq hfresh
        · exact sqliteInv_add stem q p.1 p.2 hq
        · intro r hr
          rw [hurls]
          intro hmem
          rcases List.mem_append.mp hmem with h | h
          · exact hall r (List.mem_cons_of_mem p hr) h
          · have : r.1 = p.1 := List.mem_singleton.mp h
            exact hndl2.1 (this ▸ List.mem_map_of_mem Prod.fst hr)
        · exact hndl2.2
  exact hgen ops _ _ (memSqlRel_new stop) (sqliteInv_new stop)
    (by intro p _ hmem; simp [SQLiteIndexer.new] at hmem) hnd

/-- Related backends answer every query identically. -/
theorem search_eq_of_rel (stem : String → String) (a : InMemIndexer)
    (q : SQLiteIndexer) (term : String) (hrel : MemSqlRel a q)
    (hmemInv : InMemInv a) :
    a.Search stem term = q.Search stem term := by
  obtain ⟨hstop, hdocs, hN, htf, hdl⟩ := hrel
  have hdfq : ∀ s, a.dfm s = q.dfOf s := by
    intro s
    rw [(hmemInv.2.2.2.2.1) s, hdocs]
    unfold SQLiteIndexer.dfOf
    apply List.countP_congr
    intro u _
    simp [htf s u]
  have hentries : ∀ s, a.entriesFor s = q.entriesFor s := by
    intro s
    unfold InMemIndexer.entriesFor SQLiteIndexer.entriesFor
    rw [hdocs]
    apply List.filterMap_congr
    intro u hu
    rw [htf s u, hdl u, if_pos hu]
    rfl
  unfold InMemIndexer.Search SQLiteIndexer.Search
  dsimp only
  rw [hstop, hN, hdfq, hentries]
  by_cases ht : term = ""
  · simp [ht]
  · by_cases hstopc : strToLower term ∈ q.stop
    · by_cases hlen : q.urls.length = 0 <;> simp [ht, hstopc, hlen]
    · by_cases hlen : q.urls.length = 0
      · simp [ht, hstopc, hlen]
      · by_cases hdf0 : q.dfOf (stem (strToLower term)) = 0 <;>
          simp [ht, hstopc, hlen, hdf0]

/-- Claim C2 (amended): for every sequence of `AddDocument` calls in
which no URL is added twice, the in-memory backend and the SQLite backend
return the same hits with the same scores in the same order for every
query. -/
theorem claim2_amended_backend_equivalence (stem : String → String)
    (stop : List String) (ops : List (String × List String)) (term : String)
    (hnd : (ops.map Prod.fst).Nodup) :
    (buildMem stem stop ops).Search stem term =
      (buildSql stem stop ops).Search stem term :=
  search_eq_of_rel stem _ _ term (memSqlRel_build stem stop ops hnd)
    (inMemInv_buildMem stem stop ops)

/-- Witness for the amended C2 on a concrete two-document corpus. -/
theorem claim2_amended_witness :
    (([("a", ["x"]), ("b", ["y"])].map Prod.fst).Nodup) ∧
    (buildMem (fun w => w) [] [("a", ["x"]), ("b", ["y"])]).Search
        (fun w => w) "x" =
      (buildSql (fun w => w) [] [("a", ["x"]), ("b", ["y"])]).Search
        (fun w => w) "x" :=
  ⟨by decide,
    claim2_amended_backend_equivalence (fun w => w) [] _ "x" (by decide)⟩

/-- Counterexample to C2 as stated: re-adding URL `u` with different
words is ignored by the in-memory backend but merged by the SQLite
backend, so the two backends disagree on a subsequent search. -/
theorem claim2_counterexample :
    (buildMem (fun w => w) [] [("u", ["appl"]), ("u", ["banan"])]).Search
        (fun w => w) "banan" ≠
      (buildSql (fun w => w) [] [("u", ["appl"]), ("u", ["banan"])]).Search
        (fun w => w) "banan" := by
  intro h
  have h0 : ((buildMem (fun w => w) [] [("u", ["appl"]), ("u", ["banan"])]).Search
      (fun w => w) "banan").length = 0 := rfl
  have h1 : ((buildSql (fun w => w) [] [("u", ["appl"]), ("u", ["banan"])]).Search
      (fun w => w) "banan").length = 1 := rfl
  rw [h] at h0
  rw [h1] at h0
  exact one_ne_zero h0

/-- Claim C3 evaluated on the code: on the in-memory backend re-adding a
URL is a no-op, but on the project03 SQLite backend (which has no
duplicate check) re-adding URL `u` with new words creates a fresh posting
(`banan ↦ 1`), changes the document's summed length from 1 to 2, and
changes the derived document frequency of `banan` from 0 to 1 — `N`
(the `urls` row count) alone stays 1. -/
theorem claim3_sqlite_readd_changes_postings :
    (buildMem (fun w => w) [] [("u", ["appl"]), ("u", ["banan"])] =
      buildMem (fun w => w) [] [("u", ["appl"])]) ∧
    (buildSql (fun w => w) [] [("u", ["appl"])]).hitsTab "u" "banan" = 0 ∧
    (buildSql (fun w => w) [] [("u", ["appl"]), ("u", ["banan"])]).hitsTab
        "u" "banan" = 1 ∧
    (buildSql (fun w => w) [] [("u", ["appl"])]).totalWords "u" = 1 ∧
    (buildSql (fun w => w) [] [("u", ["appl"]), ("u", ["banan"])]).totalWords
        "u" = 2 ∧
    (buildSql (fun w => w) [] [("u", ["appl"])]).dfOf "banan" = 0 ∧
    (buildSql (fun w => w) [] [("u", ["appl"]), ("u", ["banan"])]).dfOf
        "banan" = 1 ∧
    (buildSql (fun w => w) [] [("u", ["appl"]), ("u", ["banan"])]).urls =
      ["u"] :=
  ⟨rfl, by decide, by decide, by decide, by decide, by decide, by decide,
    by decide⟩

/-- Claim C1 evaluated on the code: `SQLiteIndexV2` stores
`word_count = len(words)` — the raw length including stopwords — so with
stopword `the`, adding `a ↦ [the, whale]` and `b ↦ [ship]` and searching
`whale` scores `(1/2)·ln 2` (raw length 2) instead of the claimed
`(1/1)·ln(2/1)` (surviving-token length 1). -/
theorem claim1_v2_raw_word_count :
    ((((SQLiteIndexV2.new ["the"]).Add (fun w => w) "a" ["the", "whale"]).Add
        (fun w => w) "b" ["ship"]).SearchTFIDF (fun w => w) "whale" =
      [mkHit 2 1 ("a", 1, 2)]) ∧
    (mkHit 2 1 ("a", 1, 2)).Score = ((1 : ℝ) / 2) * Real.log 2 ∧
    ((1 : ℝ) / 2) * Real.log 2 ≠ ((1 : ℝ) / 1) * Real.log ((2 : ℝ) / 1) := by
  refine ⟨rfl, ?_, ?_⟩
  · show ((1 : Nat) : ℝ) / ((2 : Nat) : ℝ) *
        Real.log (((2 : Nat) : ℝ) / ((1 : Nat) : ℝ)) = ((1 : ℝ) / 2) * Real.log 2
    norm_num
  · have hlog : (0 : ℝ) < Real.log 2 := Real.log_pos one_lt_two
    intro h
    rw [div_one, one_mul] at h
    have hz : Real.log 2 = 0 := by linarith
    exact hlog.ne' hz

/-- Witness for C5: the comparator characterization at concrete hits and
pairwise-orderedness of a concrete search result. -/
theorem claim5_witness :
    (lessHit ⟨"a", 1⟩ ⟨"b", 0⟩ ↔
      ((1 : ℝ) > 0 ∨ ((1 : ℝ) = 0 ∧ ("a" : String) < "b"))) ∧
    ((buildMem (fun w => w) [] [("a", ["x"]), ("b", ["y"])]).Search
        (fun w => w) "x").Pairwise lessHit :=
  ⟨(claim5_deterministic_ranking (fun w => w) [] [] "").1 ⟨"a", 1⟩ ⟨"b", 0⟩,
    (claim5_deterministic_ranking (fun w => w) []
      [("a", ["x"]), ("b", ["y"])] "x").2.2.2⟩

/-- Counterexample to C7 as stated: status 201 is a 2xx success, yet
`Download` returns an error rather than the body. -/
theorem claim7_counterexample :
    Download (some (201, "x")) ≠ Except.ok "x" := by
  intro h
  simp [Download] at h

/-- Claim C7 (amended): `Download` returns the raw body exactly when the
request succeeded with status exactly 200 (`http.StatusOK`); any other
status, and a failed request, yield an error and no body. -/
theorem claim7_amended_download_ok_iff :
    ∀ (resp : Option (Nat × String)) (b : String),
      Download resp = Except.ok b ↔ resp = some (200, b) := by
  intro resp b
  match resp with
  | none => simp [Download]
  | some (st, body) =>
      by_cases hst : st = 200
      · subst hst
        simp [Download]
      · simp [Download, hst]

/-- The per-href transformation `Extract` actually applies: trim
surrounding whitespace and drop values that become empty. -/
def trimDrop (v : String) : Option String :=
  if strTrim v = "" then none else some (strTrim v)

mutual

/-- The hrefs collected by the walker are the verbatim hrefs after
trimming and dropping empties. -/
theorem nodeWalk_hrefs (skip : Nat) (n : HNode) :
    (nodeWalk skip n).2 = (specVerbatimHrefs skip n).filterMap trimDrop := by
  cases n with
  | text s => simp [nodeWalk, specVerbatimHrefs]
  | elem tag attrs children =>
      rw [nodeWalk, specVerbatimHrefs]
      dsimp only
      rw [List.filterMap_append]
      have hown : (if (if isSkipTag tag then skip + 1 else skip) = 0 &&
            eqFoldB tag "a" then
          attrs.filterMap (fun kv =>
            if eqFoldB kv.1 "href" then
              let v := strTrim kv.2
              if v = "" then none else some v
            else none)
          else []) =
          ((if (if isSkipTag tag then skip + 1 else skip) = 0 &&
              eqFoldB tag "a" then
            attrs.filterMap (fun kv =>
              if eqFoldB kv.1 "href" then some kv.2 else none)
            else [])).filterMap trimDrop := by
        by_cases hc : ((if isSkipTag tag then skip + 1 else skip) = 0 &&
            eqFoldB tag "a") = true
        · rw [if_pos hc, if_pos hc, List.filterMap_filterMap]
          apply List.filterMap_congr
          intro kv _
          by_cases hh : eqFoldB kv.1 "href" = true
          · rw [if_pos hh, if_pos hh]
            rfl
          · rw [if_neg hh, if_neg hh]
            rfl
        · rw [if_neg hc, if_neg hc]
          rfl
      rw [hown, nodesWalk_hrefs]

/-- List version of `nodeWalk_hrefs`. -/
theorem nodesWalk_hrefs (skip : Nat) (ns : List HNode) :
    (nodesWalk skip ns).2 = (specVerbatimHrefsList skip ns).filterMap trimDrop := by
  cases ns with
  | nil => simp [nodesWalk, specVerbatimHrefsList]
  | cons n t =>
      rw [nodesWalk, specVerbatimHrefsList]
      dsimp only
      rw [List.filterMap_append, nodeWalk_hrefs, nodesWalk_hrefs]

end

/-- Claim C8 (amended): for every parsed HTML tree, the href sequence of
`Extract` consists of exactly the href attribute values of anchor
elements outside `script`/`style` subtrees, in document order, each
trimmed of surrounding whitespace and with whitespace-only values
dropped; no other element contributes. -/
theorem claim8_amended_extract_hrefs (root : HNode) :
    (Extract root).2 = (specVerbatimHrefs 0 root).filterMap trimDrop :=
  nodeWalk_hrefs 0 root

/-- Counterexample to C8 as stated: an href of `" x "` is returned as
`"x"`, not verbatim. -/
theorem claim8_counterexample :
    (Extract (HNode.elem "a" [("href", " x ")] [])).2 = ["x"] ∧
    specVerbatimHrefs 0 (HNode.elem "a" [("href", " x ")] []) = [" x "] ∧
    ¬ (Extract (HNode.elem "a" [("href", " x ")] [])).2 =
      specVerbatimHrefs 0 (HNode.elem "a" [("href", " x ")] []) := by
  have h1 : (Extract (HNode.elem "a" [("href", " x ")] [])).2 = ["x"] := by
    simp [Extract, nodeWalk, nodesWalk, isSkipTag, eqFoldB, strToLower,
      strTrim]
  have h2 : specVerbatimHrefs 0 (HNode.elem "a" [("href", " x ")] []) =
      [" x "] := by
    simp [specVerbatimHrefs, specVerbatimHrefsList, isSkipTag, eqFoldB,
      strToLower]
  refine ⟨h1, h2, fun h => ?_⟩
  rw [h1, h2] at h
  exact absurd h (by decide)

/-- Loop invariant of the crawler: if every queued and already-emitted
URL satisfies `P`, and every URL passing the `hostBase` prefix filter
satisfies `P`, then every URL in the loop's output satisfies `P`. -/
theorem crawlLoop_all (fetch : String → Option (List String))
    (hostBase : String) (max : Nat) (P : String → Prop)
    (hpre : ∀ v, hasPrefixB hostBase v = true → P v) :
    ∀ visited queue order, (∀ u ∈ queue, P u) → (∀ u ∈ order, P u) →
      ∀ u ∈ crawlLoop fetch hostBase max visited queue order, P u := by
  intro visited queue order
  refine crawlLoop.induct fetch hostBase max
    (motive := fun visited queue order =>
      (∀ u ∈ queue, P u) → (∀ u ∈ order, P u) →
      ∀ u ∈ crawlLoop fetch hostBase max visited queue order, P u)
    ?_ ?_ ?_ ?_ ?_ visited queue order
  · intro visited order _ ho u hu
    rw [crawlLoop] at hu
    exact ho u hu
  · intro visited order cur rest hlen hmem ih hq ho u hu
    rw [crawlLoop] at hu
    rw [dif_pos hlen, if_pos hmem] at hu
    exact ih (fun v hv => hq v (List.mem_cons_of_mem cur hv)) ho u hu
  · intro visited order cur rest hlen hmem v2 o2 hfetch ih hq ho u hu
    rw [crawlLoop] at hu
    rw [dif_pos hlen, if_neg hmem] at hu
    rw [hfetch] at hu
    dsimp only at hu
    refine ih (fun v hv => hq v (List.mem_cons_of_mem cur hv)) ?_ u hu
    intro v hv
    rcases List.mem_append.mp hv with h | h
    · exact ho v h
    · exact (List.mem_singleton.mp h) ▸ hq cur (List.mem_cons_self cur rest)
  · intro visited order cur rest hlen hmem v2 o2 hrefs hfetch fresh ih hq ho u hu
    rw [crawlLoop] at hu
    rw [dif_pos hlen, if_neg hmem] at hu
    rw [hfetch] at hu
    dsimp only at hu
    refine ih ?_ ?_ u hu
    · intro v hv
      rcases List.mem_append.mp hv with h | h
      · exact hq v (List.mem_cons_of_mem cur h)
      · obtain ⟨hr, _, hval⟩ := List.mem_filterMap.mp h
        dsimp only at hval
        split_ifs at hval with h1 h2 h3
        have hv2 := Option.some.inj hval
        exact hv2 ▸ hpre _ h2
    · intro v hv
      rcases List.mem_append.mp hv with h | h
      · exact ho v h
      · exact (List.mem_singleton.mp h) ▸ hq cur (List.mem_cons_self cur rest)
  · intro visited order cur rest hlen _ ho u hu
    rw [crawlLoop] at hu
    rw [dif_neg hlen] at hu
    exact ho u hu

/-- Claim C6: for a parseable start URL, every URL in the crawl output is
the start URL itself or carries the start's `scheme://host/` string as a
prefix (the crawler's same-host check). -/
theorem claim6_host_containment (fetch : String → Option (List String))
    (start : String) (max : Nat) (out : List String) (info : GoURL)
    (hparse : urlParse start = some info)
    (hcrawl : Crawl fetch start max = some out) :
    ∀ u ∈ out, u = start ∨
      hasPrefixB (info.scheme ++ "://" ++ info.host ++ "/") u = true := by
  unfold Crawl at hcrawl
  by_cases hmax : max = 0
  · rw [if_pos hmax] at hcrawl
    obtain rfl := Option.some.inj hcrawl
    intro u hu
    exact absurd hu (List.not_mem_nil u)
  · rw [if_neg hmax, hparse] at hcrawl
    obtain rfl := Option.some.inj hcrawl
    exact crawlLoop_all fetch _ max _ (fun v hv => Or.inr hv) [] [start] []
      (fun v hv => Or.inl (List.mem_singleton.mp hv)) (fun v hv => absurd hv
        (List.not_mem_nil v))

/-- Witness for C6 on a concrete one-page crawl. -/
theorem claim6_witness :
    urlParse "http://h/x" = some ⟨"http", true, "h", "/x", false, "", ""⟩ ∧
    Crawl (fun _ => none) "http://h/x" 2 = some ["http://h/x"] ∧
    ∀ u ∈ ["http://h/x"], u = "http://h/x" ∨
      hasPrefixB ("http" ++ "://" ++ "h" ++ "/") u = true := by
  have hp : urlParse "http://h/x" =
      some ⟨"http", true, "h", "/x", false, "", ""⟩ := by decide
  have hc : Crawl (fun _ => none) "http://h/x" 2 = some ["http://h/x"] := by
    unfold Crawl
    rw [hp]
    norm_num
    rw [crawlLoop]
    norm_num
    rw [crawlLoop]
  exact ⟨hp, hc, claim6_host_containment (fun _ => none) "http://h/x" 2
    ["http://h/x"] ⟨"http", true, "h", "/x", false, "", ""⟩ hp hc⟩

/-- Claim C9: `CleanHref` applies its rules in order — trim; drop when
empty or fragment-only; drop `javascript:`/`data:` case-insensitively;
otherwise resolve against the base (with a trailing `/` ensured) and
strip the fragment — with the spec's two concrete scenarios and further
per-rule instances evaluated on the model. -/
theorem claim9_cleanhref_rules :
    (∀ base href, strTrim href = "" ∨ hasPrefixB "#" (strTrim href) = true →
      CleanHref base href = "") ∧
    (∀ base href,
      hasPrefixB "javascript:" (strToLower (strTrim href)) = true ∨
        hasPrefixB "data:" (strToLower (strTrim href)) = true →
      CleanHref base href = "") ∧
    CleanHref "http://example.com/base/" "c.html#sec" =
      "http://example.com/base/c.html" ∧
    CleanHref "http://example.com/base/" "javascript:alert(1)" = "" ∧
    CleanHref "http://example.com/base/" "#frag" = "" ∧
    CleanHref "http://example.com/base" "c.html#sec" =
      "http://example.com/base/c.html" ∧
    CleanHref "http://example.com/base/" "  " = "" ∧
    CleanHref "http://example.com/base/" "DATA:text/plain,x" = "" ∧
    CleanHref "http://example.com/base/" "a/b" = "http://example.com/base/a/b" ∧
    CleanHref "http://example.com/base/" "/x" = "http://example.com/x" := by
  refine ⟨?_, ?_, by decide, by decide, by decide, by decide, by decide,
    by decide, by decide, by decide⟩
  · intro base href h
    unfold CleanHref
    dsimp only
    rw [if_pos h]
  · intro base href h
    unfold CleanHref
    dsimp only
    by_cases h1 : strTrim href = "" ∨ hasPrefixB "#" (strTrim href) = true
    · rw [if_pos h1]
    · rw [if_neg h1, if_pos h]

/-- Witness for C9's general drop rules at concrete inputs. -/
theorem claim9_witness :
    CleanHref "http://b/" " " = "" ∧
    CleanHref "http://b/" "JavaScript:x(1)" = "" :=
  ⟨claim9_cleanhref_rules.1 "http://b/" " " (Or.inl (by decide)),
    claim9_cleanhref_rules.2.1 "http://b/" "JavaScript:x(1)"
      (Or.inl (by decide))⟩
